import Mathlib

/-!
Verification of the frame-sequencing reader of `xzreader` (src/xzreader.c).

The embedding keeps the source's structure: `xzreader_begin`, `xzreader_open`,
`xzreader_reopen` and `xzreader_read` are translated function by function.
The two external collaborators (the buffered source `reada`/`peeka` from
reada.h, and the liblzma single-frame decode engine) are not part of this
repository; they are modelled from the spec's capability contracts (§6):
the source as an explicit consumable-window state, the engine as an abstract
step function, with the decoder contract (`FrameDecoder`) stating the
properties §6 requires of it.  Machine integers are modelled as `Nat`
(all the counters in the C code are sizes that cannot overflow in practice,
and no arithmetic in the translated code wraps).  The unbounded C loop in
`xzreader_read` is translated with an explicit fuel parameter; `none` marks
fuel exhaustion and is excluded in the theorems.
-/

/-- Subset of `lzma_ret` values that the code in src/xzreader.c inspects
(the list in `lzma_strerror`, plus `LZMA_OK` and `LZMA_STREAM_END`). -/
inductive LzmaRet where
  | LZMA_OK
  | LZMA_STREAM_END
  | LZMA_MEM_ERROR
  | LZMA_OPTIONS_ERROR
  | LZMA_FORMAT_ERROR
  | LZMA_DATA_ERROR
  | LZMA_BUF_ERROR
deriving DecidableEq, Repr

/-- The `err[2]` out-parameter of the C code: a tagged (origin, message) pair.
`eio f` models `ERRNO(f)` (an OS-level read or allocation failure),
`estr f m` models `ERRSTR(m)` inside function `f` (a structural violation
the core itself detects), and `exz f r` models `ERRXZ(f, r)` (an engine
rejection). -/
inductive Err where
  | eio (func : String)
  | estr (func : String) (msg : String)
  | exz (func : String) (zret : LzmaRet)
deriving DecidableEq, Repr

/-- Return code of `xzreader_begin` / `xzreader_open` / `xzreader_reopen`:
`rc1` = success (header consumed, ready to read), `rc0` = empty input /
no more frames (not an error), `rcErr e` = failure (-1) with `err[2] = e`. -/
inductive Rc where
  | rcErr (e : Err)
  | rc0
  | rc1
deriving DecidableEq, Repr

/-- Modelled from the spec: the Buffered Source (`struct fda` of reada.h,
an external collaborator, §6).  `window` is the consumable window
`[cur, end)` of bytes already fetched from the descriptor and not yet
consumed; `rest` is the bytes the descriptor still holds beyond the window;
`ioerr` means the next attempt to refill from the descriptor fails at the
OS level.  The fixed buffer capacity of the real reada is abstracted away:
a refill makes all remaining descriptor bytes visible, which satisfies the
§6 contract ("guarantees at least min-bytes are visible ... returns the
lesser count at true end-of-descriptor") and does not affect consumption
accounting. -/
structure Fda where
  window : List Nat
  rest : List Nat
  ioerr : Bool
deriving DecidableEq, Repr

/-- Modelled from the spec: `peeka(fda, buf, n)` — "ensure at least n bytes
visible, refilling from the descriptor as needed"; returns the available
count (`some k`), `some 0` at true end-of-descriptor, `none` on a
descriptor I/O error.  The window is only grown, never consumed. -/
def Fda.peeka (fda : Fda) (n : Nat) : Fda × Option Nat :=
  if n ≤ fda.window.length then (fda, some fda.window.length)
  else if fda.ioerr then (fda, none)
  else
    let avail := fda.window ++ fda.rest
    (⟨avail, [], fda.ioerr⟩, some avail.length)

/-- Modelled from the spec: `reada(fda, buf, n)` — "read up to n bytes,
refilling as needed"; returns the bytes copied (`some bytes`, possibly
short or empty at end-of-descriptor), `none` on a descriptor I/O error.
The bytes returned are consumed from the window. -/
def Fda.reada (fda : Fda) (n : Nat) : Fda × Option (List Nat) :=
  if n ≤ fda.window.length then
    (⟨fda.window.drop n, fda.rest, fda.ioerr⟩, some (fda.window.take n))
  else if fda.ioerr then (fda, none)
  else
    let avail := fda.window ++ fda.rest
    let k := min n avail.length
    (⟨avail.drop k, [], fda.ioerr⟩, some (avail.take k))

/-- Result of one `lzma_code` call: the new engine state, how many input
bytes were consumed (`avail_in` shrank by `consumed`), the output bytes
produced (written into the destination), and the return code. -/
structure StepOut (σ : Type) where
  st : σ
  consumed : Nat
  out : List Nat
  ret : LzmaRet
deriving DecidableEq, Repr

/-- Modelled from the spec: the Frame Decode Engine (liblzma, an external
collaborator, §6).  `step s inp cap` is one `lzma_code(·, LZMA_RUN)` call
on engine state `s` with input window `inp` and output capacity `cap`. -/
structure Engine (σ : Type) where
  step : σ → List Nat → Nat → StepOut σ

/-- `LZMA_STREAM_HEADER_SIZE` of lzma.h: the .xz stream header is 12 bytes. -/
def LZMA_STREAM_HEADER_SIZE : Nat := 12

/-- Result of `xzreader_begin`: the updated source, the updated engine
state, and the return code. -/
structure BeginOut (σ : Type) where
  fda : Fda
  st : σ
  rc : Rc
deriving DecidableEq, Repr

/-- `xzreader_begin` (src/xzreader.c:67-88): read a header-sized probe from
the source; 0 bytes → `rc0` (empty, not an error); a short read →
"input too small"; a full probe is fed to the engine with zero output
capacity, and any engine rejection fails with the corresponding error. -/
def xzreader_begin {σ : Type} (E : Engine σ) (s : σ) (fda : Fda) : BeginOut σ :=
  match Fda.reada fda LZMA_STREAM_HEADER_SIZE with
  | (fda1, none) => ⟨fda1, s, .rcErr (.eio "read")⟩
  | (fda1, some bytes) =>
    if bytes.length = 0 then ⟨fda1, s, .rc0⟩
    else if bytes.length < LZMA_STREAM_HEADER_SIZE then
      ⟨fda1, s, .rcErr (.estr "xzreader_begin" "input too small")⟩
    else
      let r := E.step s bytes 0
      if r.ret = .LZMA_OK then ⟨fda1, r.st, .rc1⟩
      else ⟨fda1, r.st, .rcErr (.exz "lzma_code" r.ret)⟩

/-- `struct xzreader` (src/xzreader.c:90-94): the source handle, the owned
engine state, and the `eof` (frame-complete) flag. -/
structure Xzreader (σ : Type) where
  fda : Fda
  lzma : σ
  eof : Bool
deriving DecidableEq, Repr

/-- The environment a call runs in: the engine's step function, the outcome
of `lzma_stream_decoder` (the fresh engine state it produces and its return
code — `LZMA_MEM_ERROR`/`LZMA_OPTIONS_ERROR` are environment conditions),
and whether `malloc` succeeds. -/
structure Env (σ : Type) where
  E : Engine σ
  newDecoder : σ × LzmaRet
  mallocOk : Bool

/-- `xzreader_open` (src/xzreader.c:101-122).  `zp0` is the prior value of
the caller's `*zp` out-parameter; the first component of the result is the
value of `*zp` after the call (the C code assigns it only on the success
path). -/
def xzreader_open {σ : Type} (env : Env σ) (fda : Fda) (zp0 : Option (Xzreader σ)) :
    Option (Xzreader σ) × Fda × Rc :=
  if env.newDecoder.2 = .LZMA_OK then
    let b := xzreader_begin env.E env.newDecoder.1 fda
    match b.rc with
    | .rcErr e => (zp0, b.fda, .rcErr e)
    | .rc0 => (zp0, b.fda, .rc0)
    | .rc1 =>
      if env.mallocOk then (some ⟨b.fda, b.st, false⟩, b.fda, .rc1)
      else (zp0, b.fda, .rcErr (.eio "malloc"))
  else (zp0, fda, .rcErr (.exz "lzma_stream_decoder" env.newDecoder.2))

/-- `xzreader_reopen` (src/xzreader.c:124-142): optionally switch sources;
replace the engine with a fresh one exactly when the previous frame did not
decode to completion (`¬ eof`); clear `eof`; run the same header-probe
procedure as open. -/
def xzreader_reopen {σ : Type} (env : Env σ) (z : Xzreader σ) (newFda : Option Fda) :
    Xzreader σ × Rc :=
  let z1 := match newFda with | some f => { z with fda := f } | none => z
  if z1.eof then
    let b := xzreader_begin env.E z1.lzma z1.fda
    (⟨b.fda, b.st, false⟩, b.rc)
  else
    let z2 := { z1 with lzma := env.newDecoder.1 }
    if env.newDecoder.2 = .LZMA_OK then
      let b := xzreader_begin env.E z2.lzma z2.fda
      (⟨b.fda, b.st, false⟩, b.rc)
    else (z2, .rcErr (.exz "lzma_stream_decoder" env.newDecoder.2))

/-- Result of one iteration of the read loop: `sfail` is an early `return -1`
(the reader and source states are as the C code leaves them — mutations are
not rolled back), `snext` carries the updated reader and the bytes written
into the destination during this iteration. -/
inductive StepRes (σ : Type) where
  | sfail (z : Xzreader σ) (e : Err)
  | snext (z : Xzreader σ) (out : List Nat)
deriving DecidableEq, Repr

/-- One iteration of the do-while loop of `xzreader_read`
(src/xzreader.c:160-195): prefill via `peeka`, feed the entire consumable
window to the engine tentatively, then shrink the window from the front by
exactly the consumed amount (`cur = end - avail_in`, or `cur = end = NULL`
when everything was consumed).  On an engine error the C code returns
before the window-shrink lines, so the cursor is not advanced. -/
def xzreader_step {σ : Type} (E : Engine σ) (z : Xzreader σ) (size : Nat) : StepRes σ :=
  match Fda.peeka z.fda 4 with
  | (fda1, none) => .sfail { z with fda := fda1 } (.eio "read")
  | (fda1, some n) =>
    if n = 0 then .sfail { z with fda := fda1 } (.estr "xzreader_read" "unexpected EOF")
    else
      let r := E.step z.lzma fda1.window size
      if r.ret = .LZMA_OK ∨ r.ret = .LZMA_STREAM_END then
        .snext ⟨⟨fda1.window.drop r.consumed, fda1.rest, fda1.ioerr⟩, r.st,
                if r.ret = .LZMA_STREAM_END then true else z.eof⟩ r.out
      else
        .sfail { z with fda := fda1, lzma := r.st } (.exz "lzma_code" r.ret)

/-- The do-while loop of `xzreader_read` (src/xzreader.c:160-195), with an
explicit fuel bound (`none` = fuel exhausted).  A `some (z, out, none)`
result is a successful return of `out.length`; `some (z, out, some e)` is a
`return -1` with `err = e`, after the earlier iterations already consumed
input and wrote `out` into the destination buffer. -/
def xzreader_readLoop {σ : Type} (E : Engine σ) (z : Xzreader σ) (size : Nat) :
    Nat → Option (Xzreader σ × List Nat × Option Err)
  | 0 => none
  | fuel + 1 =>
    match xzreader_step E z size with
    | .sfail z' e => some (z', [], some e)
    | .snext z' out =>
      let size' := size - out.length
      if size' = 0 ∨ z'.eof then some (z', out, none)
      else
        match xzreader_readLoop E z' size' fuel with
        | none => none
        | some (z'', out', e) => some (z'', out ++ out', e)

/-- `xzreader_read` (src/xzreader.c:152-198): return 0 immediately when the
frame is already complete, otherwise run the tentative-read loop. -/
def xzreader_read {σ : Type} (E : Engine σ) (z : Xzreader σ) (size : Nat) (fuel : Nat) :
    Option (Xzreader σ × List Nat × Option Err) :=
  if z.eof then some (z, [], none) else xzreader_readLoop E z size fuel

/-- The driver pattern of src/main.c:44-46: repeated `xzreader_read` calls
with the same destination capacity until the frame-complete signal (or an
error).  Concatenates the bytes of all calls. -/
def xzreader_drain {σ : Type} (E : Engine σ) (z : Xzreader σ) (size rfuel : Nat) :
    Nat → Option (Xzreader σ × List Nat × Option Err)
  | 0 => none
  | dfuel + 1 =>
    match xzreader_read E z size rfuel with
    | none => none
    | some (z', out, some e) => some (z', out, some e)
    | some (z', out, none) =>
      if z'.eof then some (z', out, none)
      else
        match xzreader_drain E z' size rfuel dfuel with
        | none => none
        | some (z'', out', e) => some (z'', out ++ out', e)

/-- Basic well-formedness of an engine, implicit in the C interface of
`lzma_code`: it never claims to have consumed more input than offered nor
to have produced more output than the destination capacity. -/
def Engine.WF {σ : Type} (E : Engine σ) : Prop :=
  ∀ s inp cap, (E.step s inp cap).consumed ≤ inp.length ∧ (E.step s inp cap).out.length ≤ cap

/-- Modelled from the spec: the Frame Decode Engine capability contract
(§6) specialised to one valid frame `frame` whose decompressed content is
`content`.  `R s i j` abstracts engine state `s` as "`i` bytes of the frame
consumed, `j` bytes of the content emitted".  The engine "is
specified/trusted to stop consuming exactly at the frame's true end" (§4.3
rationale), signals `LZMA_STREAM_END` exactly when the frame's last byte is
consumed, never errors on the valid frame, and makes progress whenever it
is given input and output space. -/
structure FrameDecoder {σ : Type} (E : Engine σ) (init : σ) (frame content : List Nat)
    (R : σ → Nat → Nat → Prop) : Prop where
  hdr_lt : LZMA_STREAM_HEADER_SIZE < frame.length
  hdr_ret : (E.step init (frame.take LZMA_STREAM_HEADER_SIZE) 0).ret = .LZMA_OK
  hdr_consumed : (E.step init (frame.take LZMA_STREAM_HEADER_SIZE) 0).consumed =
    LZMA_STREAM_HEADER_SIZE
  hdr_R : R (E.step init (frame.take LZMA_STREAM_HEADER_SIZE) 0).st LZMA_STREAM_HEADER_SIZE 0
  step_consumed_le : ∀ s i j trailing inp cap, R s i j → LZMA_STREAM_HEADER_SIZE ≤ i →
    i < frame.length → inp <+: frame.drop i ++ trailing →
    (E.step s inp cap).consumed ≤ inp.length
  step_frame_le : ∀ s i j trailing inp cap, R s i j → LZMA_STREAM_HEADER_SIZE ≤ i →
    i < frame.length → inp <+: frame.drop i ++ trailing →
    i + (E.step s inp cap).consumed ≤ frame.length
  step_out_pre : ∀ s i j trailing inp cap, R s i j → LZMA_STREAM_HEADER_SIZE ≤ i →
    i < frame.length → inp <+: frame.drop i ++ trailing →
    (E.step s inp cap).out <+: content.drop j
  step_out_le : ∀ s i j trailing inp cap, R s i j → LZMA_STREAM_HEADER_SIZE ≤ i →
    i < frame.length → inp <+: frame.drop i ++ trailing →
    (E.step s inp cap).out.length ≤ cap
  step_R : ∀ s i j trailing inp cap, R s i j → LZMA_STREAM_HEADER_SIZE ≤ i →
    i < frame.length → inp <+: frame.drop i ++ trailing →
    R (E.step s inp cap).st (i + (E.step s inp cap).consumed)
      (j + (E.step s inp cap).out.length)
  step_end_iff : ∀ s i j trailing inp cap, R s i j → LZMA_STREAM_HEADER_SIZE ≤ i →
    i < frame.length → inp <+: frame.drop i ++ trailing →
    ((E.step s inp cap).ret = .LZMA_STREAM_END ↔
      i + (E.step s inp cap).consumed = frame.length)
  step_done_out : ∀ s i j trailing inp cap, R s i j → LZMA_STREAM_HEADER_SIZE ≤ i →
    i < frame.length → inp <+: frame.drop i ++ trailing →
    (i + (E.step s inp cap).consumed = frame.length →
      j + (E.step s inp cap).out.length = content.length)
  step_ret_ok : ∀ s i j trailing inp cap, R s i j → LZMA_STREAM_HEADER_SIZE ≤ i →
    i < frame.length → inp <+: frame.drop i ++ trailing →
    ((E.step s inp cap).ret = .LZMA_OK ∨ (E.step s inp cap).ret = .LZMA_STREAM_END)
  step_progress : ∀ s i j trailing inp cap, R s i j → LZMA_STREAM_HEADER_SIZE ≤ i →
    i < frame.length → inp <+: frame.drop i ++ trailing →
    ((E.step s inp cap).ret = .LZMA_OK → inp ≠ [] → 0 < cap →
      0 < (E.step s inp cap).consumed + (E.step s inp cap).out.length)

/-- Invariant of the read loop while decoding `frame` (with `trailing` being
whatever follows the frame in the descriptor): the engine state abstracts
to position `(i, j)`, the source's unconsumed bytes are exactly the
unconsumed tail of the frame followed by `trailing`, and the
frame-complete flag is set exactly at a clean end. -/
def ReadInv {σ : Type} (frame content : List Nat) (R : σ → Nat → Nat → Prop)
    (trailing : List Nat) (z : Xzreader σ) (i j : Nat) : Prop :=
  R z.lzma i j ∧
  z.fda.window ++ z.fda.rest = frame.drop i ++ trailing ∧
  z.fda.ioerr = false ∧
  LZMA_STREAM_HEADER_SIZE ≤ i ∧ i ≤ frame.length ∧ j ≤ content.length ∧
  (z.eof = true → i = frame.length ∧ j = content.length) ∧
  (z.eof = false → i < frame.length)

/-- State of the toy frame decoder: `i` input bytes consumed so far, the
announced content length once the length byte has been parsed, and `j`
output bytes emitted so far. -/
structure ToySt where
  i : Nat
  len : Option Nat
  j : Nat
deriving DecidableEq, Repr

/-- A concrete engine instance used to exercise the reader: it decodes the
`toyCompress` format (12 magic bytes, one length byte, then the raw
content).  It consumes the header incrementally, then the length byte, then
copies content bytes bounded by the output capacity, and signals
`LZMA_STREAM_END` exactly when the last frame byte is consumed. -/
def toyStep (s : ToySt) (inp : List Nat) (cap : Nat) : StepOut ToySt :=
  if s.i < 12 then
    let c := min (12 - s.i) inp.length
    ⟨⟨s.i + c, none, 0⟩, c, [], .LZMA_OK⟩
  else if s.i = 12 then
    match inp with
    | [] => ⟨s, 0, [], .LZMA_OK⟩
    | b :: _ => ⟨⟨13, some b, 0⟩, 1, [],
        if b = 0 then .LZMA_STREAM_END else .LZMA_OK⟩
  else
    match s.len with
    | none => ⟨s, 0, [], .LZMA_DATA_ERROR⟩
    | some m =>
      let k := min cap (min inp.length (m - s.j))
      ⟨⟨s.i + k, some m, s.j + k⟩, k, inp.take k,
        if s.j + k = m then .LZMA_STREAM_END else .LZMA_OK⟩

/-- The toy engine. -/
def toyEngine : Engine ToySt := ⟨toyStep⟩

/-- Initial state of the toy engine (a fresh decoder). -/
def toyInit : ToySt := ⟨0, none, 0⟩

/-- The 12-byte header of the toy format (same size as an .xz stream
header). -/
def toyMagic : List Nat := [253, 55, 122, 88, 90, 0, 0, 0, 0, 0, 0, 0]

/-- The toy reference compressor: one self-terminated frame per content. -/
def toyCompress (content : List Nat) : List Nat :=
  toyMagic ++ [content.length] ++ content

/-- Abstraction relation of the toy engine: the state determines exactly
how many frame bytes were consumed and content bytes emitted. -/
def toyR (content : List Nat) (s : ToySt) (i j : Nat) : Prop :=
  s.i = i ∧ s.j = j ∧
  ((i < 13 ∧ j = 0 ∧ s.len = none) ∨
   (13 ≤ i ∧ s.len = some content.length ∧ i = 13 + j ∧ j ≤ content.length))

theorem xz_step_inv {σ : Type} {E : Engine σ} {init : σ} {frame content : List Nat}
    {R : σ → Nat → Nat → Prop} (FD : FrameDecoder E init frame content R)
    {trailing : List Nat} {z : Xzreader σ} {i j : Nat} (size : Nat)
    (hInv : ReadInv frame content R trailing z i j) (heof : z.eof = false) :
    ∃ c p z₁,
      xzreader_step E z size = .snext z₁ ((content.drop j).take p) ∧
      ReadInv frame content R trailing z₁ (i + c) (j + p) ∧
      p ≤ size ∧
      z₁.fda.window.length + z₁.fda.rest.length + c =
        z.fda.window.length + z.fda.rest.length ∧
      (0 < size → z₁.eof = false → 0 < c + p) := by
  obtain ⟨hR, hwin, hio, hi12, hiL, hjM, heoft, heoff⟩ := hInv
  have hiLt : i < frame.length := heoff heof
  -- the refilled window after peeka
  have hmain : ∀ fda1 : Fda, Fda.peeka z.fda 4 = (fda1, some fda1.window.length) →
      fda1.window ++ fda1.rest = frame.drop i ++ trailing → fda1.ioerr = false →
      fda1.window ≠ [] →
      fda1.window.length + fda1.rest.length = z.fda.window.length + z.fda.rest.length →
      ∃ c p z₁,
        xzreader_step E z size = .snext z₁ ((content.drop j).take p) ∧
        ReadInv frame content R trailing z₁ (i + c) (j + p) ∧
        p ≤ size ∧
        z₁.fda.window.length + z₁.fda.rest.length + c =
          z.fda.window.length + z.fda.rest.length ∧
        (0 < size → z₁.eof = false → 0 < c + p) := by
    intro fda1 hpeek hwin1 hio1 hne1 htot1
    have hpre : fda1.window <+: frame.drop i ++ trailing := by
      rw [← hwin1]; exact ⟨fda1.rest, rfl⟩
    set r := E.step z.lzma fda1.window size with hr
    have hcle : r.consumed ≤ fda1.window.length :=
      FD.step_consumed_le z.lzma i j trailing fda1.window size hR hi12 hiLt hpre
    have hfle : i + r.consumed ≤ frame.length :=
      FD.step_frame_le z.lzma i j trailing fda1.window size hR hi12 hiLt hpre
    have houtp : r.out <+: content.drop j :=
      FD.step_out_pre z.lzma i j trailing fda1.window size hR hi12 hiLt hpre
    have houtle : r.out.length ≤ size :=
      FD.step_out_le z.lzma i j trailing fda1.window size hR hi12 hiLt hpre
    have hR' : R r.st (i + r.consumed) (j + r.out.length) :=
      FD.step_R z.lzma i j trailing fda1.window size hR hi12 hiLt hpre
    have hendiff : (r.ret = .LZMA_STREAM_END ↔ i + r.consumed = frame.length) :=
      FD.step_end_iff z.lzma i j trailing fda1.window size hR hi12 hiLt hpre
    have hdone : i + r.consumed = frame.length → j + r.out.length = content.length :=
      FD.step_done_out z.lzma i j trailing fda1.window size hR hi12 hiLt hpre
    have hretok : r.ret = .LZMA_OK ∨ r.ret = .LZMA_STREAM_END :=
      FD.step_ret_ok z.lzma i j trailing fda1.window size hR hi12 hiLt hpre
    have hprog : r.ret = .LZMA_OK → fda1.window ≠ [] → 0 < size →
        0 < r.consumed + r.out.length :=
      FD.step_progress z.lzma i j trailing fda1.window size hR hi12 hiLt hpre
    have houteq : r.out = (content.drop j).take r.out.length :=
      (List.prefix_iff_eq_take).mp houtp
    have hjp : j + r.out.length ≤ content.length := by
      have := houtp.length_le
      rw [List.length_drop] at this
      omega
    refine ⟨r.consumed, r.out.length,
      ⟨⟨fda1.window.drop r.consumed, fda1.rest, fda1.ioerr⟩, r.st,
        if r.ret = .LZMA_STREAM_END then true else z.eof⟩, ?_, ?_, houtle, ?_, ?_⟩
    · have hlen0 : ¬ (fda1.window.length = 0) := by
        simpa [List.length_eq_zero] using hne1
      simp only [xzreader_step, hpeek, ← hr]
      rw [if_neg hlen0, if_pos hretok, ← houteq]
    · refine ⟨hR', ?_, hio1, by omega, hfle, hjp, ?_, ?_⟩
      · show fda1.window.drop r.consumed ++ fda1.rest = _
        have h1 : (fda1.window ++ fda1.rest).drop r.consumed =
            fda1.window.drop r.consumed ++ fda1.rest :=
          List.drop_append_of_le_length hcle
        have hcfr : r.consumed ≤ (frame.drop i).length := by
          rw [List.length_drop]; omega
        have h2 : (frame.drop i ++ trailing).drop r.consumed =
            (frame.drop i).drop r.consumed ++ trailing :=
          List.drop_append_of_le_length hcfr
        rw [← h1, hwin1, h2, List.drop_drop, Nat.add_comm]
      · intro hef
        by_cases hend : r.ret = .LZMA_STREAM_END
        · exact ⟨hendiff.mp hend, hdone (hendiff.mp hend)⟩
        · simp only [if_neg hend] at hef
          rw [heof] at hef
          cases hef
      · intro hef
        by_cases hend : r.ret = .LZMA_STREAM_END
        · simp [if_pos hend] at hef
        · have : i + r.consumed ≠ frame.length := fun h => hend (hendiff.mpr h)
          omega
    · have : (fda1.window.drop r.consumed).length = fda1.window.length - r.consumed :=
        List.length_drop _ _
      simp only [this]
      omega
    · intro hsz hef
      have hend : r.ret ≠ .LZMA_STREAM_END := by
        intro hend
        simp [if_pos hend] at hef
      exact hprog (hretok.resolve_right hend) hne1 hsz
  by_cases h4 : 4 ≤ z.fda.window.length
  · refine hmain z.fda ?_ hwin hio ?_ rfl
    · rw [Fda.peeka, if_pos h4]
    · intro hnil; rw [hnil] at h4; simp at h4
  · have hne : frame.drop i ++ trailing ≠ [] := by
      intro hnil
      have : frame.drop i = [] := by
        rcases List.append_eq_nil.mp hnil with ⟨h1, _⟩; exact h1
      rw [List.drop_eq_nil_iff] at this
      omega
    refine hmain ⟨z.fda.window ++ z.fda.rest, [], z.fda.ioerr⟩ ?_ ?_ hio ?_ ?_
    · rw [Fda.peeka, if_neg h4, hio]
      simp
    · simpa using hwin
    · show z.fda.window ++ z.fda.rest ≠ []
      rw [hwin]; exact hne
    · simp

theorem xz_readLoop_inv {σ : Type} {E : Engine σ} {init : σ} {frame content : List Nat}
    {R : σ → Nat → Nat → Prop} (FD : FrameDecoder E init frame content R)
    {trailing : List Nat} :
    ∀ fuel (z : Xzreader σ) (size i j : Nat) (z' : Xzreader σ) (out : List Nat),
      ReadInv frame content R trailing z i j → z.eof = false →
      xzreader_readLoop E z size fuel = some (z', out, none) →
      ∃ i' j', j ≤ j' ∧ ReadInv frame content R trailing z' i' j' ∧
        out = (content.drop j).take (j' - j) := by
  intro fuel
  induction fuel with
  | zero =>
    intro z size i j z' out _ _ h
    simp [xzreader_readLoop] at h
  | succ fuel ih =>
    intro z size i j z' out hInv heof hloop
    obtain ⟨c, p, z₁, hstep, hInv₁, hple, htot, hprog⟩ := xz_step_inv FD size hInv heof
    have hjpM : j + p ≤ content.length := hInv₁.2.2.2.2.2.1
    have hlen : ((content.drop j).take p).length = p := by
      rw [List.length_take, List.length_drop]; omega
    simp only [xzreader_readLoop, hstep] at hloop
    rw [hlen] at hloop
    by_cases hexit : size - p = 0 ∨ z₁.eof = true
    · rw [if_pos hexit] at hloop
      simp only [Option.some.injEq, Prod.mk.injEq] at hloop
      obtain ⟨hz, hout, -⟩ := hloop
      exact ⟨i + c, j + p, by omega, hz ▸ hInv₁,
        by rw [← hout, Nat.add_sub_cancel_left]⟩
    · rw [if_neg hexit] at hloop
      have heof₁ : z₁.eof = false := by
        cases h : z₁.eof
        · rfl
        · exact absurd (Or.inr h) hexit
      cases hrec : xzreader_readLoop E z₁ (size - p) fuel with
      | none => rw [hrec] at hloop; cases hloop
      | some trip =>
        obtain ⟨z₂, out₂, e₂⟩ := trip
        rw [hrec] at hloop
        simp only [Option.some.injEq, Prod.mk.injEq] at hloop
        obtain ⟨hz, hout, he⟩ := hloop
        rw [he] at hrec
        obtain ⟨i', j'', hjle, hInv₂, hout₂⟩ :=
          ih z₁ (size - p) (i + c) (j + p) z₂ out₂ hInv₁ heof₁ hrec
        refine ⟨i', j'', by omega, hz ▸ hInv₂, ?_⟩
        rw [← hout, hout₂]
        have harith : j'' - j = p + (j'' - (j + p)) := by omega
        rw [harith, List.take_add]
        congr 1
        rw [List.drop_drop, Nat.add_comm]

theorem xz_readLoop_mono {σ : Type} (E : Engine σ) :
    ∀ fuel fuel' (z : Xzreader σ) (size : Nat) r, fuel ≤ fuel' →
      xzreader_readLoop E z size fuel = some r →
      xzreader_readLoop E z size fuel' = some r := by
  intro fuel
  induction fuel with
  | zero => intro fuel' z size r _ h; simp [xzreader_readLoop] at h
  | succ fuel ih =>
    intro fuel' z size r hle h
    obtain ⟨fuel'', rfl⟩ : ∃ k, fuel' = k + 1 := ⟨fuel' - 1, by omega⟩
    cases hstep : xzreader_step E z size with
    | sfail z' e => simp only [xzreader_readLoop, hstep] at h ⊢; exact h
    | snext z' out =>
      simp only [xzreader_readLoop, hstep] at h ⊢
      by_cases hexit : size - out.length = 0 ∨ z'.eof = true
      · rw [if_pos hexit] at h ⊢; exact h
      · rw [if_neg hexit] at h ⊢
        cases hrec : xzreader_readLoop E z' (size - out.length) fuel with
        | none => rw [hrec] at h; cases h
        | some trip =>
          rw [hrec] at h
          rw [ih fuel'' z' (size - out.length) trip (by omega) hrec]
          exact h

theorem xz_readLoop_total {σ : Type} {E : Engine σ} {init : σ} {frame content : List Nat}
    {R : σ → Nat → Nat → Prop} (FD : FrameDecoder E init frame content R)
    {trailing : List Nat} :
    ∀ N (z : Xzreader σ) (size i j : Nat),
      z.fda.window.length + z.fda.rest.length + size ≤ N →
      ReadInv frame content R trailing z i j → z.eof = false → 0 < size →
      ∃ fuel z' i' j', j ≤ j' ∧
        xzreader_readLoop E z size fuel =
          some (z', (content.drop j).take (j' - j), none) ∧
        ReadInv frame content R trailing z' i' j' ∧
        (z'.eof = true ∨ j' = j + size) := by
  intro N
  induction N with
  | zero => intro z size i j hN _ _ hsz; omega
  | succ N ih =>
    intro z size i j hN hInv heof hsz
    obtain ⟨c, p, z₁, hstep, hInv₁, hple, htot, hprog⟩ := xz_step_inv FD size hInv heof
    have hjpM : j + p ≤ content.length := hInv₁.2.2.2.2.2.1
    have hlen : ((content.drop j).take p).length = p := by
      rw [List.length_take, List.length_drop]; omega
    by_cases hexit : size - p = 0 ∨ z₁.eof = true
    · refine ⟨1, z₁, i + c, j + p, by omega, ?_, hInv₁, ?_⟩
      · rw [Nat.add_sub_cancel_left]
        simp only [xzreader_readLoop, hstep, hlen]
        rw [if_pos hexit]
      · rcases hexit with h | h
        · right; omega
        · left; exact h
    · have heof₁ : z₁.eof = false := by
        rcases h : z₁.eof with _ | _
        · rfl
        · exact absurd (Or.inr h) hexit
      have hszp : 0 < size - p := by
        rcases Nat.eq_zero_or_pos (size - p) with h | h
        · exact absurd (Or.inl h) hexit
        · exact h
      have hcp : 0 < c + p := hprog hsz heof₁
      have hN' : z₁.fda.window.length + z₁.fda.rest.length + (size - p) ≤ N := by
        omega
      obtain ⟨fuel, z', i', j'', hjle, hloop, hInv', hpost⟩ :=
        ih z₁ (size - p) (i + c) (j + p) hN' hInv₁ heof₁ hszp
      refine ⟨fuel + 1, z', i', j'', by omega, ?_, hInv', ?_⟩
      · have harith : j'' - j = p + (j'' - (j + p)) := by omega
        rw [harith, List.take_add, List.drop_drop]
        simp only [xzreader_readLoop, hstep, hlen]
        rw [if_neg hexit, hloop]
      · rcases hpost with h | h
        · left; exact h
        · right; omega

theorem xz_read_inv {σ : Type} {E : Engine σ} {init : σ} {frame content : List Nat}
    {R : σ → Nat → Nat → Prop} (FD : FrameDecoder E init frame content R)
    {trailing : List Nat} {z : Xzreader σ} {size fuel i j : Nat}
    {z' : Xzreader σ} {out : List Nat}
    (hInv : ReadInv frame content R trailing z i j)
    (hread : xzreader_read E z size fuel = some (z', out, none)) :
    ∃ i' j', j ≤ j' ∧ ReadInv frame content R trailing z' i' j' ∧
      out = (content.drop j).take (j' - j) := by
  cases heof : z.eof with
  | true =>
    rw [xzreader_read, if_pos heof] at hread
    simp only [Option.some.injEq, Prod.mk.injEq] at hread
    obtain ⟨hz, hout, -⟩ := hread
    exact ⟨i, j, le_refl j, hz ▸ hInv, by simp [← hout]⟩
  | false =>
    rw [xzreader_read, if_neg (by rw [heof]; exact Bool.false_ne_true)] at hread
    exact xz_readLoop_inv FD fuel z size i j z' out hInv heof hread

theorem xz_read_mono {σ : Type} (E : Engine σ) {z : Xzreader σ} {size fuel fuel' : Nat}
    {r : Xzreader σ × List Nat × Option Err} (hle : fuel ≤ fuel')
    (h : xzreader_read E z size fuel = some r) :
    xzreader_read E z size fuel' = some r := by
  cases heof : z.eof with
  | true => rw [xzreader_read, if_pos heof] at h ⊢; exact h
  | false =>
    rw [xzreader_read, if_neg (by rw [heof]; exact Bool.false_ne_true)] at h ⊢
    exact xz_readLoop_mono E fuel fuel' z size r hle h

theorem xz_drain_mono {σ : Type} (E : Engine σ) :
    ∀ dfuel (z : Xzreader σ) (size rfuel rfuel' : Nat)
      (r : Xzreader σ × List Nat × Option Err), rfuel ≤ rfuel' →
      xzreader_drain E z size rfuel dfuel = some r →
      xzreader_drain E z size rfuel' dfuel = some r := by
  intro dfuel
  induction dfuel with
  | zero => intro z size rfuel rfuel' r _ h; simp [xzreader_drain] at h
  | succ dfuel ih =>
    intro z size rfuel rfuel' r hle h
    rw [xzreader_drain] at h
    cases hread : xzreader_read E z size rfuel with
    | none =>
      simp only [hread] at h
      exact Option.noConfusion h
    | some trip =>
      obtain ⟨z₁, out₁, e₁⟩ := trip
      have hread' := xz_read_mono E hle hread
      rw [xzreader_drain]
      cases e₁ with
      | some e =>
        simp only [hread] at h
        simp only [hread']
        exact h
      | none =>
        simp only [hread] at h
        simp only [hread']
        by_cases heof : z₁.eof = true
        · rw [if_pos heof] at h ⊢; exact h
        · rw [if_neg heof] at h ⊢
          cases hrec : xzreader_drain E z₁ size rfuel dfuel with
          | none =>
            rw [hrec] at h
            exact Option.noConfusion h
          | some trip' =>
            rw [hrec] at h
            rw [ih z₁ size rfuel rfuel' trip' hle hrec]
            exact h

theorem xz_drain_inv {σ : Type} {E : Engine σ} {init : σ} {frame content : List Nat}
    {R : σ → Nat → Nat → Prop} (FD : FrameDecoder E init frame content R)
    {trailing : List Nat} :
    ∀ dfuel (z : Xzreader σ) (size rfuel i j : Nat) (z' : Xzreader σ) (out : List Nat),
      ReadInv frame content R trailing z i j →
      xzreader_drain E z size rfuel dfuel = some (z', out, none) →
      ∃ i' j', j ≤ j' ∧ ReadInv frame content R trailing z' i' j' ∧ z'.eof = true ∧
        out = (content.drop j).take (j' - j) := by
  intro dfuel
  induction dfuel with
  | zero => intro z size rfuel i j z' out _ h; simp [xzreader_drain] at h
  | succ dfuel ih =>
    intro z size rfuel i j z' out hInv hdrain
    rw [xzreader_drain] at hdrain
    cases hread : xzreader_read E z size rfuel with
    | none =>
      simp only [hread] at hdrain
      exact Option.noConfusion hdrain
    | some trip =>
      obtain ⟨z₁, out₁, e₁⟩ := trip
      cases e₁ with
      | some e =>
        simp only [hread] at hdrain
        exact absurd hdrain (by simp)
      | none =>
        simp only [hread] at hdrain
        obtain ⟨i₁, j₁, hjle₁, hInv₁, hout₁⟩ := xz_read_inv FD hInv hread
        by_cases heof₁ : z₁.eof = true
        · rw [if_pos heof₁] at hdrain
          simp only [Option.some.injEq, Prod.mk.injEq] at hdrain
          obtain ⟨hz, hout, -⟩ := hdrain
          exact ⟨i₁, j₁, hjle₁, hz ▸ hInv₁, hz ▸ heof₁, hout ▸ hout₁⟩
        · rw [if_neg heof₁] at hdrain
          cases hrec : xzreader_drain E z₁ size rfuel dfuel with
          | none => rw [hrec] at hdrain; cases hdrain
          | some trip' =>
            obtain ⟨z₂, out₂, e₂⟩ := trip'
            rw [hrec] at hdrain
            simp only [Option.some.injEq, Prod.mk.injEq] at hdrain
            obtain ⟨hz, hout, he⟩ := hdrain
            rw [he] at hrec
            obtain ⟨i', j'', hjle₂, hInv₂, heof₂, hout₂⟩ :=
              ih z₁ size rfuel i₁ j₁ z₂ out₂ hInv₁ hrec
            have hj₁M : j₁ ≤ content.length := hInv₁.2.2.2.2.2.1
            refine ⟨i', j'', by omega, hz ▸ hInv₂, hz ▸ heof₂, ?_⟩
            rw [← hout, hout₁, hout₂]
            have harith : j'' - j = (j₁ - j) + (j'' - j₁) := by omega
            rw [harith, List.take_add]
            congr 1
            · rw [List.drop_drop]
              congr 2
              omega

theorem xz_drain_total {σ : Type} {E : Engine σ} {init : σ} {frame content : List Nat}
    {R : σ → Nat → Nat → Prop} (FD : FrameDecoder E init frame content R)
    {trailing : List Nat} :
    ∀ K (z : Xzreader σ) (size i j : Nat),
      content.length - j ≤ K * size →
      ReadInv frame content R trailing z i j → z.eof = false → 0 < size →
      ∃ dfuel rfuel z' i',
        xzreader_drain E z size rfuel dfuel = some (z', content.drop j, none) ∧
        z'.eof = true ∧ ReadInv frame content R trailing z' i' content.length := by
  intro K
  induction K with
  | zero =>
    intro z size i j hK hInv heof hsz
    obtain ⟨fuel, z₁, i₁, j₁, hjle, hloop, hInv₁, hpost⟩ :=
      xz_readLoop_total FD (z.fda.window.length + z.fda.rest.length + size) z size i j
        (le_refl _) hInv heof hsz
    have hread : xzreader_read E z size fuel =
        some (z₁, (content.drop j).take (j₁ - j), none) := by
      rw [xzreader_read, if_neg (by rw [heof]; exact Bool.false_ne_true)]
      exact hloop
    have hj₁M : j₁ ≤ content.length := hInv₁.2.2.2.2.2.1
    have heof₁ : z₁.eof = true := by
      rcases hpost with h | h
      · exact h
      · omega
    obtain ⟨hi₁, hj₁⟩ := hInv₁.2.2.2.2.2.2.1 heof₁
    refine ⟨1, fuel, z₁, i₁, ?_, heof₁, hj₁ ▸ hInv₁⟩
    simp only [xzreader_drain, hread]
    rw [if_pos heof₁]
    have htk : (content.drop j).take (j₁ - j) = content.drop j := by
      apply List.take_of_length_le
      rw [List.length_drop]
      omega
    rw [htk]
  | succ K ih =>
    intro z size i j hK hInv heof hsz
    have hK' : content.length - j ≤ K * size + size := by
      have h1 : (K + 1) * size = K * size + size := by ring
      omega
    obtain ⟨fuel, z₁, i₁, j₁, hjle, hloop, hInv₁, hpost⟩ :=
      xz_readLoop_total FD (z.fda.window.length + z.fda.rest.length + size) z size i j
        (le_refl _) hInv heof hsz
    have hread : xzreader_read E z size fuel =
        some (z₁, (content.drop j).take (j₁ - j), none) := by
      rw [xzreader_read, if_neg (by rw [heof]; exact Bool.false_ne_true)]
      exact hloop
    have hj₁M : j₁ ≤ content.length := hInv₁.2.2.2.2.2.1
    by_cases heof₁ : z₁.eof = true
    · obtain ⟨hi₁, hj₁⟩ := hInv₁.2.2.2.2.2.2.1 heof₁
      refine ⟨1, fuel, z₁, i₁, ?_, heof₁, hj₁ ▸ hInv₁⟩
      simp only [xzreader_drain, hread]
      rw [if_pos heof₁]
      have htk : (content.drop j).take (j₁ - j) = content.drop j := by
        apply List.take_of_length_le
        rw [List.length_drop]
        omega
      rw [htk]
    · have heof₁' : z₁.eof = false := by
        cases h : z₁.eof
        · rfl
        · exact absurd h heof₁
      have hj₁ : j₁ = j + size := by
        rcases hpost with h | h
        · exact absurd h heof₁
        · exact h
      have hK₁ : content.length - j₁ ≤ K * size := by omega
      obtain ⟨dfuel', rfuel', z', i'', hdrain', heofF, hInvF⟩ :=
        ih z₁ size i₁ j₁ hK₁ hInv₁ heof₁' hsz
      refine ⟨dfuel' + 1, max fuel rfuel', z', i'', ?_, heofF, hInvF⟩
      have hreadM : xzreader_read E z size (max fuel rfuel') =
          some (z₁, (content.drop j).take (j₁ - j), none) :=
        xz_read_mono E (le_max_left _ _) hread
      have hdrainM : xzreader_drain E z₁ size (max fuel rfuel') dfuel' =
          some (z', content.drop j₁, none) :=
        xz_drain_mono E dfuel' z₁ size rfuel' (max fuel rfuel') _ (le_max_right _ _) hdrain'
      simp only [xzreader_drain, hreadM]
      rw [if_neg heof₁]
      simp only [hdrainM]
      have hsplit : content.drop j =
          (content.drop j).take (j₁ - j) ++ content.drop j₁ := by
        conv_lhs => rw [← List.take_append_drop (j₁ - j) (content.drop j)]
        rw [List.drop_drop]
        congr 2
        omega
      rw [← hsplit]

theorem xz_begin_ok {σ : Type} {E : Engine σ} {init : σ} {frame content : List Nat}
    {R : σ → Nat → Nat → Prop} (FD : FrameDecoder E init frame content R)
    (trailing : List Nat) :
    xzreader_begin E init ⟨[], frame ++ trailing, false⟩ =
      ⟨⟨frame.drop LZMA_STREAM_HEADER_SIZE ++ trailing, [], false⟩,
       (E.step init (frame.take LZMA_STREAM_HEADER_SIZE) 0).st, .rc1⟩ := by
  have hlt := FD.hdr_lt
  have hlen : LZMA_STREAM_HEADER_SIZE ≤ (frame ++ trailing).length := by
    rw [List.length_append]; omega
  have hreada : Fda.reada ⟨[], frame ++ trailing, false⟩ LZMA_STREAM_HEADER_SIZE =
      (⟨frame.drop LZMA_STREAM_HEADER_SIZE ++ trailing, [], false⟩,
       some (frame.take LZMA_STREAM_HEADER_SIZE)) := by
    rw [Fda.reada]
    rw [if_neg (by simp [LZMA_STREAM_HEADER_SIZE])]
    rw [if_neg (by simp)]
    simp only [List.nil_append]
    rw [min_eq_left hlen]
    rw [List.drop_append_of_le_length (le_of_lt hlt),
      List.take_append_of_le_length (le_of_lt hlt)]
  have hblen : (frame.take LZMA_STREAM_HEADER_SIZE).length = LZMA_STREAM_HEADER_SIZE := by
    rw [List.length_take]
    omega
  simp only [xzreader_begin, hreada]
  rw [if_neg (by rw [hblen]; simp [LZMA_STREAM_HEADER_SIZE])]
  rw [if_neg (by rw [hblen]; omega)]
  simp only [FD.hdr_ret, if_pos]

theorem xz_open_ok {σ : Type} {E : Engine σ} {init : σ} {frame content : List Nat}
    {R : σ → Nat → Nat → Prop} (FD : FrameDecoder E init frame content R)
    (trailing : List Nat) (zp0 : Option (Xzreader σ)) :
    xzreader_open ⟨E, (init, .LZMA_OK), true⟩ ⟨[], frame ++ trailing, false⟩ zp0 =
      (some ⟨⟨frame.drop LZMA_STREAM_HEADER_SIZE ++ trailing, [], false⟩,
        (E.step init (frame.take LZMA_STREAM_HEADER_SIZE) 0).st, false⟩,
       ⟨frame.drop LZMA_STREAM_HEADER_SIZE ++ trailing, [], false⟩, .rc1) ∧
    ReadInv frame content R trailing
      ⟨⟨frame.drop LZMA_STREAM_HEADER_SIZE ++ trailing, [], false⟩,
        (E.step init (frame.take LZMA_STREAM_HEADER_SIZE) 0).st, false⟩
      LZMA_STREAM_HEADER_SIZE 0 := by
  have hlt := FD.hdr_lt
  constructor
  · simp only [xzreader_open, xz_begin_ok FD trailing]
    rfl
  · refine ⟨FD.hdr_R, ?_, rfl, le_refl _, le_of_lt hlt, Nat.zero_le _, ?_, ?_⟩
    · simp
    · intro h; cases h
    · intro h; exact hlt

theorem toyCompress_length (content : List Nat) :
    (toyCompress content).length = 13 + content.length := by
  simp [toyCompress, toyMagic]
  omega

theorem toyCompress_drop12 (content : List Nat) :
    (toyCompress content).drop 12 = content.length :: content := by
  simp [toyCompress, toyMagic]

theorem toyCompress_drop13 (content : List Nat) (j : Nat) :
    (toyCompress content).drop (13 + j) = content.drop j := by
  rw [← List.drop_drop]
  rfl

theorem toyStep_spec (content : List Nat) :
    ∀ (s : ToySt) (i j : Nat) (trailing inp : List Nat) (cap : Nat),
      toyR content s i j → LZMA_STREAM_HEADER_SIZE ≤ i →
      i < (toyCompress content).length →
      inp <+: (toyCompress content).drop i ++ trailing →
      (toyEngine.step s inp cap).consumed ≤ inp.length ∧
      i + (toyEngine.step s inp cap).consumed ≤ (toyCompress content).length ∧
      (toyEngine.step s inp cap).out <+: content.drop j ∧
      (toyEngine.step s inp cap).out.length ≤ cap ∧
      toyR content (toyEngine.step s inp cap).st (i + (toyEngine.step s inp cap).consumed)
        (j + (toyEngine.step s inp cap).out.length) ∧
      ((toyEngine.step s inp cap).ret = .LZMA_STREAM_END ↔
        i + (toyEngine.step s inp cap).consumed = (toyCompress content).length) ∧
      (i + (toyEngine.step s inp cap).consumed = (toyCompress content).length →
        j + (toyEngine.step s inp cap).out.length = content.length) ∧
      ((toyEngine.step s inp cap).ret = .LZMA_OK ∨
        (toyEngine.step s inp cap).ret = .LZMA_STREAM_END) ∧
      ((toyEngine.step s inp cap).ret = .LZMA_OK → inp ≠ [] → 0 < cap →
        0 < (toyEngine.step s inp cap).consumed + (toyEngine.step s inp cap).out.length) := by
  intro s i j trailing inp cap hR h12 hiL hpre
  obtain ⟨hsi, hsj, hdisj⟩ := hR
  rw [toyCompress_length] at hiL
  rw [LZMA_STREAM_HEADER_SIZE] at h12
  rcases hdisj with ⟨hi13, hj0, hlen⟩ | ⟨hi13, hlen, hij, hjM⟩
  · -- at the length byte: i = 12
    have hi : i = 12 := by omega
    cases inp with
    | nil =>
      have hstep : toyEngine.step s [] cap = ⟨s, 0, [], .LZMA_OK⟩ := by
        show toyStep s [] cap = _
        rw [toyStep, hsi, hi, if_neg (by omega), if_pos rfl]
      rw [hstep]
      refine ⟨?_, ?_, ?_, ?_, ?_, ?_, ?_, ?_, ?_⟩
      · show (0 : Nat) ≤ 0
        exact le_refl 0
      · show i + 0 ≤ (toyCompress content).length
        rw [toyCompress_length]
        omega
      · show ([] : List Nat) <+: content.drop j
        exact List.nil_prefix
      · show (0 : Nat) ≤ cap
        exact Nat.zero_le cap
      · show toyR content s (i + 0) (j + 0)
        exact ⟨by omega, by omega, Or.inl ⟨by omega, by omega, hlen⟩⟩
      · show LzmaRet.LZMA_OK = LzmaRet.LZMA_STREAM_END ↔ i + 0 = (toyCompress content).length
        rw [toyCompress_length]
        constructor
        · intro h; cases h
        · intro h; omega
      · show i + 0 = (toyCompress content).length → j + 0 = content.length
        rw [toyCompress_length]
        intro h
        omega
      · show LzmaRet.LZMA_OK = LzmaRet.LZMA_OK ∨ LzmaRet.LZMA_OK = LzmaRet.LZMA_STREAM_END
        exact Or.inl rfl
      · show LzmaRet.LZMA_OK = LzmaRet.LZMA_OK → ([] : List Nat) ≠ [] → 0 < cap → 0 < 0 + 0
        intro _ h _
        exact absurd rfl h
    | cons b tl =>
      have hb : b = content.length := by
        rw [hi, toyCompress_drop12] at hpre
        exact ((List.cons_prefix_cons).mp hpre).1
      have hstep : toyEngine.step s (b :: tl) cap =
          ⟨⟨13, some b, 0⟩, 1, [],
            if b = 0 then .LZMA_STREAM_END else .LZMA_OK⟩ := by
        show toyStep s (b :: tl) cap = _
        rw [toyStep, hsi, hi, if_neg (by omega), if_pos rfl]
      rw [hstep]
      refine ⟨?_, ?_, ?_, ?_, ?_, ?_, ?_, ?_, ?_⟩
      · show (1 : Nat) ≤ (b :: tl).length
        exact Nat.succ_le_succ (Nat.zero_le _)
      · show i + 1 ≤ (toyCompress content).length
        rw [toyCompress_length]
        omega
      · show ([] : List Nat) <+: content.drop j
        exact List.nil_prefix
      · show (0 : Nat) ≤ cap
        exact Nat.zero_le cap
      · show toyR content ⟨13, some b, 0⟩ (i + 1) (j + 0)
        refine ⟨?_, ?_, Or.inr ⟨?_, ?_, ?_, ?_⟩⟩
        · show (13 : Nat) = i + 1
          omega
        · show (0 : Nat) = j + 0
          omega
        · omega
        · show some b = some content.length
          rw [hb]
        · omega
        · omega
      · show (if b = 0 then LzmaRet.LZMA_STREAM_END else LzmaRet.LZMA_OK) =
            LzmaRet.LZMA_STREAM_END ↔ i + 1 = (toyCompress content).length
        rw [toyCompress_length]
        by_cases hz : b = 0
        · rw [if_pos hz]
          constructor
          · intro _; omega
          · intro _; rfl
        · rw [if_neg hz]
          constructor
          · intro h; cases h
          · intro h; omega
      · show i + 1 = (toyCompress content).length → j + 0 = content.length
        rw [toyCompress_length]
        intro h
        omega
      · show (if b = 0 then LzmaRet.LZMA_STREAM_END else LzmaRet.LZMA_OK) = LzmaRet.LZMA_OK ∨
            (if b = 0 then LzmaRet.LZMA_STREAM_END else LzmaRet.LZMA_OK) =
              LzmaRet.LZMA_STREAM_END
        by_cases hz : b = 0
        · rw [if_pos hz]; exact Or.inr rfl
        · rw [if_neg hz]; exact Or.inl rfl
      · show (if b = 0 then LzmaRet.LZMA_STREAM_END else LzmaRet.LZMA_OK) = LzmaRet.LZMA_OK →
            b :: tl ≠ [] → 0 < cap → 0 < 1 + 0
        intro _ _ _
        omega
  · -- in the body: i = 13 + j
    have hjlt : j < content.length := by omega
    have hpre' : inp <+: content.drop j ++ trailing := by
      rw [hij, toyCompress_drop13] at hpre
      exact hpre
    have hs : s = ⟨13 + j, some content.length, j⟩ := by
      obtain ⟨a, b, c⟩ := s
      simp only at hsi hsj hlen
      rw [hsi, hsj, hlen, hij]
    have hstep : toyEngine.step s inp cap =
        ⟨⟨13 + j + min cap (min inp.length (content.length - j)), some content.length,
          j + min cap (min inp.length (content.length - j))⟩,
         min cap (min inp.length (content.length - j)),
         inp.take (min cap (min inp.length (content.length - j))),
         if j + min cap (min inp.length (content.length - j)) = content.length
           then .LZMA_STREAM_END else .LZMA_OK⟩ := by
      show toyStep s inp cap = _
      rw [toyStep.eq_def, hs]
      rw [if_neg (by dsimp only; omega), if_neg (by dsimp only; omega)]
    rw [hstep]
    set k := min cap (min inp.length (content.length - j)) with hk
    have hkle : k ≤ inp.length := le_trans (min_le_right _ _) (min_le_left _ _)
    have hkMj : k ≤ content.length - j := le_trans (min_le_right _ _) (min_le_right _ _)
    have hkcap : k ≤ cap := min_le_left _ _
    have htklen : (inp.take k).length = k := by
      rw [List.length_take]
      omega
    have htkpre : inp.take k <+: content.drop j := by
      have hinp : inp = (content.drop j ++ trailing).take inp.length :=
        (List.prefix_iff_eq_take).mp hpre'
      rw [hinp, List.take_take, min_eq_left hkle,
        List.take_append_of_le_length (by rw [List.length_drop]; omega)]
      exact ⟨(content.drop j).drop k, List.take_append_drop k (content.drop j)⟩
    refine ⟨?_, ?_, ?_, ?_, ?_, ?_, ?_, ?_, ?_⟩
    · show k ≤ inp.length
      exact hkle
    · show i + k ≤ (toyCompress content).length
      rw [toyCompress_length]
      omega
    · show inp.take k <+: content.drop j
      exact htkpre
    · show (inp.take k).length ≤ cap
      rw [htklen]
      exact hkcap
    · show toyR content ⟨13 + j + k, some content.length, j + k⟩ (i + k)
        (j + (inp.take k).length)
      rw [htklen]
      refine ⟨?_, ?_, Or.inr ⟨?_, ?_, ?_, ?_⟩⟩
      · show 13 + j + k = i + k
        omega
      · show j + k = j + k
        rfl
      · omega
      · show some content.length = some content.length
        rfl
      · omega
      · omega
    · show (if j + k = content.length then LzmaRet.LZMA_STREAM_END else LzmaRet.LZMA_OK) =
          LzmaRet.LZMA_STREAM_END ↔ i + k = (toyCompress content).length
      rw [toyCompress_length]
      by_cases hz : j + k = content.length
      · rw [if_pos hz]
        constructor
        · intro _; omega
        · intro _; rfl
      · rw [if_neg hz]
        constructor
        · intro h; cases h
        · intro h; omega
    · show i + k = (toyCompress content).length → j + (inp.take k).length = content.length
      rw [toyCompress_length, htklen]
      intro h
      omega
    · show (if j + k = content.length then LzmaRet.LZMA_STREAM_END else LzmaRet.LZMA_OK) =
            LzmaRet.LZMA_OK ∨
          (if j + k = content.length then LzmaRet.LZMA_STREAM_END else LzmaRet.LZMA_OK) =
            LzmaRet.LZMA_STREAM_END
      by_cases hz : j + k = content.length
      · rw [if_pos hz]; exact Or.inr rfl
      · rw [if_neg hz]; exact Or.inl rfl
    · show (if j + k = content.length then LzmaRet.LZMA_STREAM_END else LzmaRet.LZMA_OK) =
            LzmaRet.LZMA_OK →
          inp ≠ [] → 0 < cap → 0 < k + (inp.take k).length
      rw [htklen]
      intro hok hne hcap
      have hnz : 0 < inp.length := List.length_pos.mpr hne
      have hkne : ¬ (j + k = content.length) := by
        intro hz
        rw [if_pos hz] at hok
        cases hok
      have hkpos : 0 < k := by
        rw [hk, Nat.lt_min, Nat.lt_min]
        exact ⟨hcap, hnz, by omega⟩
      omega

theorem toyEngine_wf : toyEngine.WF := by
  intro s inp cap
  show (toyStep s inp cap).consumed ≤ inp.length ∧ (toyStep s inp cap).out.length ≤ cap
  rw [toyStep.eq_def]
  by_cases h1 : s.i < 12
  · rw [if_pos h1]
    exact ⟨min_le_right _ _, Nat.zero_le cap⟩
  · rw [if_neg h1]
    by_cases h2 : s.i = 12
    · rw [if_pos h2]
      cases inp with
      | nil => exact ⟨Nat.le_refl 0, Nat.zero_le cap⟩
      | cons b tl => exact ⟨Nat.succ_le_succ (Nat.zero_le _), Nat.zero_le cap⟩
    · rw [if_neg h2]
      cases hl : s.len with
      | none =>
        exact ⟨Nat.zero_le _, Nat.zero_le cap⟩
      | some m =>
        show min cap (min inp.length (m - s.j)) ≤ inp.length ∧
          (inp.take (min cap (min inp.length (m - s.j)))).length ≤ cap
        constructor
        · exact le_trans (min_le_right _ _) (min_le_left _ _)
        · rw [List.length_take]
          exact le_trans (min_le_left _ _) (min_le_left _ _)

theorem toyFD (content : List Nat) :
    FrameDecoder toyEngine toyInit (toyCompress content) content (toyR content) := by
  have hlen12 : ((toyCompress content).take LZMA_STREAM_HEADER_SIZE).length =
      LZMA_STREAM_HEADER_SIZE := by
    rw [List.length_take, toyCompress_length, LZMA_STREAM_HEADER_SIZE]
    omega
  have hstep0 : toyEngine.step toyInit ((toyCompress content).take LZMA_STREAM_HEADER_SIZE) 0 =
      ⟨⟨12, none, 0⟩, 12, [], .LZMA_OK⟩ := by
    show toyStep toyInit ((toyCompress content).take LZMA_STREAM_HEADER_SIZE) 0 = _
    rw [toyStep.eq_def, toyInit]
    rw [if_pos (by decide)]
    have hlen12' : ((toyCompress content).take 12).length = 12 := by
      rw [List.length_take, toyCompress_length]
      omega
    simp [LZMA_STREAM_HEADER_SIZE, hlen12']
  refine ⟨?_, ?_, ?_, ?_, ?_, ?_, ?_, ?_, ?_, ?_, ?_, ?_, ?_⟩
  · rw [toyCompress_length, LZMA_STREAM_HEADER_SIZE]
    omega
  · rw [hstep0]
  · rw [hstep0]
    rfl
  · rw [hstep0]
    exact ⟨rfl, rfl, Or.inl ⟨by decide, rfl, rfl⟩⟩
  · intro s i j trailing inp cap hR h12 hiL hpre
    exact (toyStep_spec content s i j trailing inp cap hR h12 hiL hpre).1
  · intro s i j trailing inp cap hR h12 hiL hpre
    exact (toyStep_spec content s i j trailing inp cap hR h12 hiL hpre).2.1
  · intro s i j trailing inp cap hR h12 hiL hpre
    exact (toyStep_spec content s i j trailing inp cap hR h12 hiL hpre).2.2.1
  · intro s i j trailing inp cap hR h12 hiL hpre
    exact (toyStep_spec content s i j trailing inp cap hR h12 hiL hpre).2.2.2.1
  · intro s i j trailing inp cap hR h12 hiL hpre
    exact (toyStep_spec content s i j trailing inp cap hR h12 hiL hpre).2.2.2.2.1
  · intro s i j trailing inp cap hR h12 hiL hpre
    exact (toyStep_spec content s i j trailing inp cap hR h12 hiL hpre).2.2.2.2.2.1
  · intro s i j trailing inp cap hR h12 hiL hpre
    exact (toyStep_spec content s i j trailing inp cap hR h12 hiL hpre).2.2.2.2.2.2.1
  · intro s i j trailing inp cap hR h12 hiL hpre
    exact (toyStep_spec content s i j trailing inp cap hR h12 hiL hpre).2.2.2.2.2.2.2.1
  · intro s i j trailing inp cap hR h12 hiL hpre
    exact (toyStep_spec content s i j trailing inp cap hR h12 hiL hpre).2.2.2.2.2.2.2.2

theorem xz_step_snext_out {σ : Type} {E : Engine σ} (hWF : E.WF) {z : Xzreader σ}
    {size : Nat} {z₁ : Xzreader σ} {out₁ : List Nat}
    (h : xzreader_step E z size = .snext z₁ out₁) : out₁.length ≤ size := by
  cases hp : Fda.peeka z.fda 4 with
  | mk fda1 o =>
    cases o with
    | none =>
      simp only [xzreader_step, hp] at h
      exact StepRes.noConfusion h
    | some n =>
      simp only [xzreader_step, hp] at h
      by_cases hn : n = 0
      · rw [if_pos hn] at h
        exact StepRes.noConfusion h
      · rw [if_neg hn] at h
        by_cases hret : (E.step z.lzma fda1.window size).ret = .LZMA_OK ∨
            (E.step z.lzma fda1.window size).ret = .LZMA_STREAM_END
        · rw [if_pos hret] at h
          have hout := (StepRes.snext.injEq _ _ _ _).mp h
          rw [← hout.2]
          exact (hWF z.lzma fda1.window size).2
        · rw [if_neg hret] at h
          exact StepRes.noConfusion h

theorem xz_readLoop_len {σ : Type} {E : Engine σ} (hWF : E.WF) :
    ∀ fuel (z : Xzreader σ) (size : Nat) (z' : Xzreader σ) (out : List Nat),
      xzreader_readLoop E z size fuel = some (z', out, none) →
      out.length ≤ size ∧ (out.length < size → z'.eof = true) := by
  intro fuel
  induction fuel with
  | zero => intro z size z' out h; simp [xzreader_readLoop] at h
  | succ fuel ih =>
    intro z size z' out h
    cases hstep : xzreader_step E z size with
    | sfail z₁ e =>
      simp only [xzreader_readLoop, hstep] at h
      exact absurd h (by simp)
    | snext z₁ out₁ =>
      simp only [xzreader_readLoop, hstep] at h
      have hlen₁ : out₁.length ≤ size := xz_step_snext_out hWF hstep
      by_cases hexit : size - out₁.length = 0 ∨ z₁.eof = true
      · rw [if_pos hexit] at h
        simp only [Option.some.injEq, Prod.mk.injEq] at h
        obtain ⟨hz, hout, -⟩ := h
        subst hz
        rw [← hout]
        refine ⟨hlen₁, fun hlt => ?_⟩
        rcases hexit with h0 | h1
        · omega
        · exact h1
      · rw [if_neg hexit] at h
        cases hrec : xzreader_readLoop E z₁ (size - out₁.length) fuel with
        | none =>
          rw [hrec] at h
          exact Option.noConfusion h
        | some trip =>
          obtain ⟨z₂, out₂, e₂⟩ := trip
          rw [hrec] at h
          simp only [Option.some.injEq, Prod.mk.injEq] at h
          obtain ⟨hz, hout, he⟩ := h
          rw [he] at hrec
          obtain ⟨h1, h2⟩ := ih z₁ (size - out₁.length) z₂ out₂ hrec
          subst hz
          rw [← hout]
          rw [List.length_append]
          refine ⟨by omega, fun hlt => h2 (by omega)⟩

/-- Claim C1 (boundary safety): for a source holding a valid frame followed
back-to-back by the bytes of further frames (`trailing`), opening the reader
and reading the frame to completion (the drain reports the frame-complete
signal) never consumes a byte of `trailing`: the unconsumed bytes of the
Source are exactly `trailing`, i.e. the consumption cursor points at the
first byte of the next frame's header, with those bytes untouched in the
window.  Quantified over every engine satisfying the §6 decoder contract
for the frame. -/
theorem xzreader_boundary_safety {σ : Type} (E : Engine σ) (init : σ)
    (frame content : List Nat) (R : σ → Nat → Nat → Prop)
    (FD : FrameDecoder E init frame content R) (trailing : List Nat)
    (zp0 : Option (Xzreader σ)) (size rfuel dfuel : Nat)
    (z z' : Xzreader σ) (fdaR : Fda) (out : List Nat)
    (hopen : xzreader_open ⟨E, (init, .LZMA_OK), true⟩ ⟨[], frame ++ trailing, false⟩ zp0 =
      (some z, fdaR, .rc1))
    (hdrain : xzreader_drain E z size rfuel dfuel = some (z', out, none)) :
    z'.eof = true ∧ z'.fda.window ++ z'.fda.rest = trailing := by
  obtain ⟨hopen', hInv⟩ := xz_open_ok FD trailing zp0
  rw [hopen'] at hopen
  simp only [Prod.mk.injEq, Option.some.injEq] at hopen
  obtain ⟨hz, -⟩ := hopen
  rw [← hz] at hdrain
  obtain ⟨i', j', hjle, hInv', heof', hout⟩ :=
    xz_drain_inv FD dfuel _ size rfuel _ 0 z' out hInv hdrain
  obtain ⟨hiL, hjM⟩ := hInv'.2.2.2.2.2.2.1 heof'
  have hwin := hInv'.2.1
  rw [hiL, List.drop_length, List.nil_append] at hwin
  exact ⟨heof', hwin⟩

/-- Witness for C1 on the toy engine: the source holds the 15-byte frame
`toyCompress [7, 9]` immediately followed by the 14-byte frame
`toyCompress [5]`; after draining the first frame, the source's unconsumed
bytes are exactly the second frame. -/
theorem xzreader_boundary_safety_witness :
    (⟨⟨toyCompress [5], [], false⟩, (⟨15, some 2, 2⟩ : ToySt), true⟩ :
        Xzreader ToySt).eof = true ∧
    (⟨⟨toyCompress [5], [], false⟩, (⟨15, some 2, 2⟩ : ToySt), true⟩ :
        Xzreader ToySt).fda.window ++
      (⟨⟨toyCompress [5], [], false⟩, (⟨15, some 2, 2⟩ : ToySt), true⟩ :
        Xzreader ToySt).fda.rest = toyCompress [5] :=
  xzreader_boundary_safety toyEngine toyInit (toyCompress [7, 9]) [7, 9] (toyR [7, 9])
    (toyFD [7, 9]) (toyCompress [5]) none 8 5 5
    ⟨⟨(toyCompress [7, 9] ++ toyCompress [5]).drop 12, [], false⟩, ⟨12, none, 0⟩, false⟩
    ⟨⟨toyCompress [5], [], false⟩, ⟨15, some 2, 2⟩, true⟩
    ⟨(toyCompress [7, 9] ++ toyCompress [5]).drop 12, [], false⟩ [7, 9]
    (by decide) (by decide)

/-- Claim C2 (read postcondition): a successful `xzreader_read` call with
destination capacity `size > 0` returns `n` bytes with `n ≤ size`, and
`n < size` only when the frame-complete flag is set at return — the loop
exits only when the destination is full or the frame completed.  Quantified
over every engine whose step never overruns its windows. -/
theorem xzreader_read_postcondition {σ : Type} (E : Engine σ) (hWF : E.WF)
    (z : Xzreader σ) (size fuel : Nat) (hsz : 0 < size)
    (z' : Xzreader σ) (out : List Nat)
    (hread : xzreader_read E z size fuel = some (z', out, none)) :
    out.length ≤ size ∧ (out.length < size → z'.eof = true) := by
  cases heof : z.eof with
  | true =>
    rw [xzreader_read, if_pos heof] at hread
    simp only [Option.some.injEq, Prod.mk.injEq] at hread
    obtain ⟨hz, hout, -⟩ := hread
    subst hz
    rw [← hout]
    exact ⟨by simp, fun _ => heof⟩
  | false =>
    rw [xzreader_read, if_neg (by rw [heof]; exact Bool.false_ne_true)] at hread
    exact xz_readLoop_len hWF fuel z size z' out hread

/-- Witness for C2 on the toy engine: reading the one-byte frame content
`[5]` with capacity 8 returns 1 byte, and 1 < 8 is matched by the
frame-complete flag being set. -/
theorem xzreader_read_postcondition_witness :
    ([5] : List Nat).length ≤ 8 ∧
    (([5] : List Nat).length < 8 →
      (⟨⟨[], [], false⟩, (⟨14, some 1, 1⟩ : ToySt), true⟩ : Xzreader ToySt).eof = true) :=
  xzreader_read_postcondition toyEngine toyEngine_wf
    ⟨⟨[1, 5], [], false⟩, ⟨12, none, 0⟩, false⟩ 8 10 (by decide)
    ⟨⟨[], [], false⟩, ⟨14, some 1, 1⟩, true⟩ [5] (by decide)

/-- Claim C4 (mid-frame truncation detection): a read call made while the
frame is not complete, on a source whose descriptor is exhausted (the
Source reports zero bytes available, with no I/O error), fails with the
MalformedInput error "unexpected EOF" — it does not return a
truncated-but-successful count, and the reader state is left unchanged. -/
theorem xzreader_read_truncation {σ : Type} (E : Engine σ) (z : Xzreader σ)
    (size fuel : Nat) (heof : z.eof = false) (hwin : z.fda.window = [])
    (hrest : z.fda.rest = []) (hio : z.fda.ioerr = false) (hfuel : 0 < fuel) :
    xzreader_read E z size fuel =
      some (z, [], some (.estr "xzreader_read" "unexpected EOF")) := by
  obtain ⟨f, rfl⟩ : ∃ f, fuel = f + 1 := ⟨fuel - 1, by omega⟩
  obtain ⟨⟨w, r, io⟩, lz, eo⟩ := z
  simp only at heof hwin hrest hio
  subst heof hwin hrest hio
  simp [xzreader_read, xzreader_readLoop, xzreader_step, Fda.peeka]

/-- Witness for C4: a reader mid-frame (length byte parsed, no content byte
delivered yet) over an exhausted source fails with "unexpected EOF". -/
theorem xzreader_read_truncation_witness :
    xzreader_read toyEngine ⟨⟨[], [], false⟩, (⟨13, some 5, 0⟩ : ToySt), false⟩ 4 3 =
      some (⟨⟨[], [], false⟩, (⟨13, some 5, 0⟩ : ToySt), false⟩, [],
        some (.estr "xzreader_read" "unexpected EOF")) :=
  xzreader_read_truncation toyEngine ⟨⟨[], [], false⟩, ⟨13, some 5, 0⟩, false⟩ 4 3
    rfl rfl rfl rfl (by decide)

/-- Claim C6 (idempotent exhaustion): while the frame-complete flag is set,
every read call returns 0 bytes immediately and leaves the reader — and
hence the Source's consumable window — completely unchanged; the result
does not depend on the engine or on the fuel, reflecting that neither the
Source nor the engine is invoked. -/
theorem xzreader_read_idempotent_exhaustion {σ : Type} (E : Engine σ)
    (z : Xzreader σ) (size fuel : Nat) (heof : z.eof = true) :
    xzreader_read E z size fuel = some (z, [], none) := by
  rw [xzreader_read, if_pos heof]

/-- Witness for C6: a completed toy reader returns 0 bytes unchanged. -/
theorem xzreader_read_idempotent_exhaustion_witness :
    xzreader_read toyEngine ⟨⟨[9, 9], [], false⟩, (⟨15, some 2, 2⟩ : ToySt), true⟩ 7 3 =
      some (⟨⟨[9, 9], [], false⟩, (⟨15, some 2, 2⟩ : ToySt), true⟩, [], none) :=
  xzreader_read_idempotent_exhaustion toyEngine
    ⟨⟨[9, 9], [], false⟩, ⟨15, some 2, 2⟩, true⟩ 7 3 rfl

/-- Claim C7 (tentative-window accounting): in one iteration of the read
loop, after the Source made its window visible and the engine ran one
decode step consuming `c` bytes, the core shrinks the window from the
front by exactly `c`: the new window is the old one with its first `c`
elements dropped (a suffix — the cursor never moves backward, unconsumed
bytes are untouched), its length is the old length minus `c` (never grown,
never past the limit), and full consumption empties the window. -/
theorem xzreader_step_window_accounting {σ : Type} (E : Engine σ) (z : Xzreader σ)
    (size : Nat) (fda1 : Fda) (n : Nat)
    (hpeek : Fda.peeka z.fda 4 = (fda1, some n)) (hn : n ≠ 0)
    (hcons : (E.step z.lzma fda1.window size).consumed ≤ fda1.window.length)
    (hret : (E.step z.lzma fda1.window size).ret = .LZMA_OK ∨
      (E.step z.lzma fda1.window size).ret = .LZMA_STREAM_END) :
    xzreader_step E z size =
      .snext ⟨⟨fda1.window.drop (E.step z.lzma fda1.window size).consumed, fda1.rest,
          fda1.ioerr⟩, (E.step z.lzma fda1.window size).st,
          if (E.step z.lzma fda1.window size).ret = .LZMA_STREAM_END then true else z.eof⟩
        (E.step z.lzma fda1.window size).out ∧
    (fda1.window.drop (E.step z.lzma fda1.window size).consumed).length =
      fda1.window.length - (E.step z.lzma fda1.window size).consumed ∧
    fda1.window.drop (E.step z.lzma fda1.window size).consumed <:+ fda1.window ∧
    ((E.step z.lzma fda1.window size).consumed = fda1.window.length →
      fda1.window.drop (E.step z.lzma fda1.window size).consumed = []) := by
  refine ⟨?_, List.length_drop _ _, ?_, ?_⟩
  · simp only [xzreader_step, hpeek]
    rw [if_neg hn, if_pos hret]
  · exact ⟨fda1.window.take _, List.take_append_drop _ _⟩
  · intro h
    rw [h, List.drop_length]

/-- Witness for C7: a toy decode step mid-body consumes 2 of the 5 visible
bytes; the window shrinks from the front by exactly 2. -/
theorem xzreader_step_window_accounting_witness :
    xzreader_step toyEngine ⟨⟨[1, 5, 6, 7, 8], [], false⟩, (⟨13, some 4, 0⟩ : ToySt),
        false⟩ 2 =
      .snext ⟨⟨([1, 5, 6, 7, 8] : List Nat).drop
          (toyEngine.step ⟨13, some 4, 0⟩ [1, 5, 6, 7, 8] 2).consumed, [], false⟩,
          (toyEngine.step ⟨13, some 4, 0⟩ [1, 5, 6, 7, 8] 2).st,
          if (toyEngine.step ⟨13, some 4, 0⟩ [1, 5, 6, 7, 8] 2).ret = .LZMA_STREAM_END
            then true else false⟩
        (toyEngine.step ⟨13, some 4, 0⟩ [1, 5, 6, 7, 8] 2).out ∧
    (([1, 5, 6, 7, 8] : List Nat).drop
        (toyEngine.step ⟨13, some 4, 0⟩ [1, 5, 6, 7, 8] 2).consumed).length =
      ([1, 5, 6, 7, 8] : List Nat).length -
        (toyEngine.step ⟨13, some 4, 0⟩ [1, 5, 6, 7, 8] 2).consumed ∧
    ([1, 5, 6, 7, 8] : List Nat).drop
        (toyEngine.step ⟨13, some 4, 0⟩ [1, 5, 6, 7, 8] 2).consumed <:+ [1, 5, 6, 7, 8] ∧
    ((toyEngine.step ⟨13, some 4, 0⟩ [1, 5, 6, 7, 8] 2).consumed =
        ([1, 5, 6, 7, 8] : List Nat).length →
      ([1, 5, 6, 7, 8] : List Nat).drop
        (toyEngine.step ⟨13, some 4, 0⟩ [1, 5, 6, 7, 8] 2).consumed = []) :=
  xzreader_step_window_accounting toyEngine
    ⟨⟨[1, 5, 6, 7, 8], [], false⟩, ⟨13, some 4, 0⟩, false⟩ 2
    ⟨[1, 5, 6, 7, 8], [], false⟩ 5 (by decide) (by decide) (by decide) (by decide)

/-- Claim C9 (read is not atomic on error): when a read call fails after
earlier loop iterations succeeded, the bytes those iterations consumed from
the Source and wrote into the destination are neither rolled back nor
reported.  Demonstrated on the code: over a mid-frame-truncated source the
call returns the error (the C function returns -1, discarding the
accumulated count), yet one byte is already in the destination buffer and
the Source's unconsumed bytes have strictly shrunk. -/
theorem xzreader_read_not_atomic_on_error :
    xzreader_read toyEngine ⟨⟨[2, 5], [], false⟩, (⟨12, none, 0⟩ : ToySt), false⟩ 10 5 =
      some (⟨⟨[], [], false⟩, (⟨14, some 2, 1⟩ : ToySt), false⟩, [5],
        some (.estr "xzreader_read" "unexpected EOF")) ∧
    ([5] : List Nat) ≠ [] ∧
    (⟨⟨[], [], false⟩, (⟨14, some 2, 1⟩ : ToySt), false⟩ :
          Xzreader ToySt).fda.window.length +
        (⟨⟨[], [], false⟩, (⟨14, some 2, 1⟩ : ToySt), false⟩ :
          Xzreader ToySt).fda.rest.length <
      (⟨⟨[2, 5], [], false⟩, (⟨12, none, 0⟩ : ToySt), false⟩ :
          Xzreader ToySt).fda.window.length +
        (⟨⟨[2, 5], [], false⟩, (⟨12, none, 0⟩ : ToySt), false⟩ :
          Xzreader ToySt).fda.rest.length := by
  decide

/-- Claim C10 (open writes the out-parameter only on success): for every
environment, source and prior out-parameter value, `xzreader_open` leaves
the caller's Reader-handle out-parameter unchanged on every non-success
return (the "empty" outcome and every failure, including header validation
and allocation failure), and stores a Reader exactly on the success
return. -/
theorem xzreader_open_out_param {σ : Type} (env : Env σ) (fda : Fda)
    (zp0 : Option (Xzreader σ)) :
    ((xzreader_open env fda zp0).2.2 ≠ .rc1 → (xzreader_open env fda zp0).1 = zp0) ∧
    ((xzreader_open env fda zp0).2.2 = .rc1 →
      ∃ zR : Xzreader σ, (xzreader_open env fda zp0).1 = some zR) := by
  by_cases hdec : env.newDecoder.2 = .LZMA_OK
  · simp only [xzreader_open, if_pos hdec]
    cases hrc : (xzreader_begin env.E env.newDecoder.1 fda).rc with
    | rcErr e =>
      exact ⟨fun _ => rfl, fun h => Rc.noConfusion h⟩
    | rc0 =>
      exact ⟨fun _ => rfl, fun h => Rc.noConfusion h⟩
    | rc1 =>
      by_cases hm : env.mallocOk = true
      · rw [if_pos hm]
        exact ⟨fun h => absurd rfl h, fun _ => ⟨_, rfl⟩⟩
      · rw [if_neg hm]
        exact ⟨fun _ => rfl, fun h => Rc.noConfusion h⟩
  · rw [xzreader_open, if_neg hdec]
    exact ⟨fun _ => rfl, fun h => Rc.noConfusion h⟩

/-- Witness for C10: opening over an empty source (the "empty" outcome)
leaves a prior out-parameter value untouched. -/
theorem xzreader_open_out_param_witness :
    ((xzreader_open ⟨toyEngine, (toyInit, .LZMA_OK), true⟩ ⟨[], [], false⟩
        (some ⟨⟨[7], [], false⟩, (⟨0, none, 0⟩ : ToySt), false⟩)).2.2 ≠ .rc1 →
      (xzreader_open ⟨toyEngine, (toyInit, .LZMA_OK), true⟩ ⟨[], [], false⟩
        (some ⟨⟨[7], [], false⟩, (⟨0, none, 0⟩ : ToySt), false⟩)).1 =
        some ⟨⟨[7], [], false⟩, (⟨0, none, 0⟩ : ToySt), false⟩) ∧
    ((xzreader_open ⟨toyEngine, (toyInit, .LZMA_OK), true⟩ ⟨[], [], false⟩
        (some ⟨⟨[7], [], false⟩, (⟨0, none, 0⟩ : ToySt), false⟩)).2.2 = .rc1 →
      ∃ zR : Xzreader ToySt,
        (xzreader_open ⟨toyEngine, (toyInit, .LZMA_OK), true⟩ ⟨[], [], false⟩
          (some ⟨⟨[7], [], false⟩, (⟨0, none, 0⟩ : ToySt), false⟩)).1 = some zR) :=
  xzreader_open_out_param ⟨toyEngine, (toyInit, .LZMA_OK), true⟩ ⟨[], [], false⟩
    (some ⟨⟨[7], [], false⟩, ⟨0, none, 0⟩, false⟩)

/-- Claim C8 (round-trip): for any byte sequence `content` compressed into a
single valid frame `frame` (any engine satisfying the §6 decoder contract
for that frame/content pair — the reference compressor and decoder), open
over exactly that frame followed by read calls until completion reproduces
`content` exactly, ends with the frame-complete flag set by the engine's
clean end signal, and never returns an error. -/
theorem xzreader_round_trip {σ : Type} (E : Engine σ) (init : σ)
    (frame content : List Nat) (R : σ → Nat → Nat → Prop)
    (FD : FrameDecoder E init frame content R) (size : Nat) (hsz : 0 < size)
    (zp0 : Option (Xzreader σ)) :
    ∃ z fdaR rfuel dfuel z',
      xzreader_open ⟨E, (init, .LZMA_OK), true⟩ ⟨[], frame, false⟩ zp0 =
        (some z, fdaR, .rc1) ∧
      xzreader_drain E z size rfuel dfuel = some (z', content, none) ∧
      z'.eof = true := by
  obtain ⟨hopen, hInv⟩ := xz_open_ok FD [] zp0
  simp only [List.append_nil] at hopen hInv
  have hK : content.length - 0 ≤ (content.length + 1) * size := by
    have h1 : (content.length + 1) * 1 ≤ (content.length + 1) * size :=
      Nat.mul_le_mul_left _ hsz
    rw [Nat.mul_one] at h1
    omega
  obtain ⟨dfuel, rfuel, z', i', hdrain, heof, hInvF⟩ :=
    xz_drain_total FD (content.length + 1)
      ⟨⟨frame.drop LZMA_STREAM_HEADER_SIZE, [], false⟩,
        (E.step init (frame.take LZMA_STREAM_HEADER_SIZE) 0).st, false⟩
      size LZMA_STREAM_HEADER_SIZE 0 hK hInv rfl hsz
  rw [List.drop_zero] at hdrain
  exact ⟨_, _, rfuel, dfuel, z', hopen, hdrain, heof⟩

/-- Witness for C8 on the toy engine and toy compressor with content
`[3, 1, 4]` and capacity 2 (forcing several read calls). -/
theorem xzreader_round_trip_witness :
    ∃ z fdaR rfuel dfuel z',
      xzreader_open ⟨toyEngine, (toyInit, .LZMA_OK), true⟩
        ⟨[], toyCompress [3, 1, 4], false⟩ none = (some z, fdaR, .rc1) ∧
      xzreader_drain toyEngine z 2 rfuel dfuel = some (z', [3, 1, 4], none) ∧
      z'.eof = true :=
  xzreader_round_trip toyEngine toyInit (toyCompress [3, 1, 4]) [3, 1, 4]
    (toyR [3, 1, 4]) (toyFD [3, 1, 4]) 2 (by decide) none

theorem xz_reada_bytes (fda : Fda) (n : Nat) (hio : fda.ioerr = false) :
    (Fda.reada fda n).2 = some ((fda.window ++ fda.rest).take n) := by
  rw [Fda.reada]
  by_cases h : n ≤ fda.window.length
  · rw [if_pos h]
    show some (fda.window.take n) = _
    rw [List.take_append_of_le_length h]
  · rw [if_neg h, if_neg (by rw [hio]; exact Bool.false_ne_true)]
    show some ((fda.window ++ fda.rest).take (min n (fda.window ++ fda.rest).length)) = _
    by_cases hlen : n ≤ (fda.window ++ fda.rest).length
    · rw [min_eq_left hlen]
    · rw [min_eq_right (by omega), List.take_length,
        List.take_of_length_le (by omega)]

/-- Claim C3 (open outcome trichotomy): with a working decoder construction
and no descriptor I/O error, (1) a source yielding zero bytes makes open
signal the distinct non-error "empty" outcome with the out-parameter
untouched; (2) a source yielding between one and eleven bytes makes open
fail with the MalformedInput error "input too small"; (3) with a full
12-byte header probe, the probe is fed to the engine with zero output
capacity — engine rejection fails open with the corresponding engine
error, and engine acceptance (with allocation succeeding) yields a Reader
armed with the frame-complete flag false. -/
theorem xzreader_open_trichotomy {σ : Type} (env : Env σ) (fda : Fda)
    (zp0 : Option (Xzreader σ))
    (hdec : env.newDecoder.2 = .LZMA_OK) (hio : fda.ioerr = false) :
    (fda.window ++ fda.rest = [] →
      xzreader_open env fda zp0 =
        (zp0, (Fda.reada fda LZMA_STREAM_HEADER_SIZE).1, .rc0)) ∧
    (fda.window ++ fda.rest ≠ [] →
      (fda.window ++ fda.rest).length < LZMA_STREAM_HEADER_SIZE →
      xzreader_open env fda zp0 =
        (zp0, (Fda.reada fda LZMA_STREAM_HEADER_SIZE).1,
          .rcErr (.estr "xzreader_begin" "input too small"))) ∧
    (LZMA_STREAM_HEADER_SIZE ≤ (fda.window ++ fda.rest).length →
      ((env.E.step env.newDecoder.1
          ((fda.window ++ fda.rest).take LZMA_STREAM_HEADER_SIZE) 0).ret ≠ .LZMA_OK →
        xzreader_open env fda zp0 =
          (zp0, (Fda.reada fda LZMA_STREAM_HEADER_SIZE).1,
            .rcErr (.exz "lzma_code"
              (env.E.step env.newDecoder.1
                ((fda.window ++ fda.rest).take LZMA_STREAM_HEADER_SIZE) 0).ret))) ∧
      ((env.E.step env.newDecoder.1
          ((fda.window ++ fda.rest).take LZMA_STREAM_HEADER_SIZE) 0).ret = .LZMA_OK →
        env.mallocOk = true →
        xzreader_open env fda zp0 =
          (some ⟨(Fda.reada fda LZMA_STREAM_HEADER_SIZE).1,
            (env.E.step env.newDecoder.1
              ((fda.window ++ fda.rest).take LZMA_STREAM_HEADER_SIZE) 0).st, false⟩,
           (Fda.reada fda LZMA_STREAM_HEADER_SIZE).1, .rc1))) := by
  obtain ⟨fda1, hre⟩ : ∃ f1, Fda.reada fda LZMA_STREAM_HEADER_SIZE =
      (f1, some ((fda.window ++ fda.rest).take LZMA_STREAM_HEADER_SIZE)) :=
    ⟨(Fda.reada fda LZMA_STREAM_HEADER_SIZE).1,
      by rw [← xz_reada_bytes fda LZMA_STREAM_HEADER_SIZE hio]⟩
  have h1 : (Fda.reada fda LZMA_STREAM_HEADER_SIZE).1 = fda1 := by rw [hre]
  refine ⟨?_, ?_, ?_⟩
  · intro hnil
    rw [h1]
    have hb : xzreader_begin env.E env.newDecoder.1 fda =
        ⟨fda1, env.newDecoder.1, .rc0⟩ := by
      simp only [xzreader_begin, hre, hnil]
      simp
    simp only [xzreader_open, if_pos hdec, hb]
  · intro hne hlt
    rw [h1]
    have hlen : ((fda.window ++ fda.rest).take LZMA_STREAM_HEADER_SIZE).length =
        (fda.window ++ fda.rest).length := by
      rw [List.length_take, min_eq_right (by omega)]
    have hb : xzreader_begin env.E env.newDecoder.1 fda =
        ⟨fda1, env.newDecoder.1,
          .rcErr (.estr "xzreader_begin" "input too small")⟩ := by
      simp only [xzreader_begin, hre]
      rw [if_neg (by rw [hlen]; simpa [List.length_eq_zero] using hne),
        if_pos (by rw [hlen]; exact hlt)]
    simp only [xzreader_open, if_pos hdec, hb]
  · intro hge
    have hlen12 : ((fda.window ++ fda.rest).take LZMA_STREAM_HEADER_SIZE).length =
        LZMA_STREAM_HEADER_SIZE := by
      rw [List.length_take, min_eq_left hge]
    constructor
    · intro hret
      rw [h1]
      have hb : xzreader_begin env.E env.newDecoder.1 fda =
          ⟨fda1,
            (env.E.step env.newDecoder.1
              ((fda.window ++ fda.rest).take LZMA_STREAM_HEADER_SIZE) 0).st,
            .rcErr (.exz "lzma_code"
              (env.E.step env.newDecoder.1
                ((fda.window ++ fda.rest).take LZMA_STREAM_HEADER_SIZE) 0).ret)⟩ := by
        simp only [xzreader_begin, hre]
        rw [if_neg (by rw [hlen12]; simp [LZMA_STREAM_HEADER_SIZE]),
          if_neg (by rw [hlen12]; omega), if_neg hret]
      simp only [xzreader_open, if_pos hdec, hb]
    · intro hret hm
      rw [h1]
      have hb : xzreader_begin env.E env.newDecoder.1 fda =
          ⟨fda1,
            (env.E.step env.newDecoder.1
              ((fda.window ++ fda.rest).take LZMA_STREAM_HEADER_SIZE) 0).st, .rc1⟩ := by
        simp only [xzreader_begin, hre]
        rw [if_neg (by rw [hlen12]; simp [LZMA_STREAM_HEADER_SIZE]),
          if_neg (by rw [hlen12]; omega), if_pos hret]
      simp only [xzreader_open, if_pos hdec, hb]
      rw [if_pos hm]

/-- Witness for C3: opening over an empty source yields the "empty" outcome
with no Reader constructed. -/
theorem xzreader_open_trichotomy_witness :
    xzreader_open ⟨toyEngine, (toyInit, .LZMA_OK), true⟩ ⟨[], [], false⟩ none =
      (none, (Fda.reada ⟨[], [], false⟩ LZMA_STREAM_HEADER_SIZE).1, .rc0) :=
  (xzreader_open_trichotomy ⟨toyEngine, (toyInit, .LZMA_OK), true⟩ ⟨[], [], false⟩ none
    rfl rfl).1 rfl

/-- Claim C5 (reopen behavior): `xzreader_reopen` retains the engine
instance as-is exactly when the previous frame completed cleanly
(frame-complete true at entry), and discards and replaces it with a freshly
constructed one exactly when it did not; the frame-complete flag is
cleared, and the same header-probe procedure as open (`xzreader_begin`)
runs against the possibly replaced Source, its 1/0/failure result returned
under the same rules as open.  If constructing the fresh engine fails, the
call fails with that engine error. -/
theorem xzreader_reopen_spec {σ : Type} (env : Env σ) (z : Xzreader σ)
    (newFda : Option Fda) :
    (z.eof = true →
      xzreader_reopen env z newFda =
        (⟨(xzreader_begin env.E z.lzma (newFda.getD z.fda)).fda,
          (xzreader_begin env.E z.lzma (newFda.getD z.fda)).st, false⟩,
         (xzreader_begin env.E z.lzma (newFda.getD z.fda)).rc)) ∧
    (z.eof = false → env.newDecoder.2 = .LZMA_OK →
      xzreader_reopen env z newFda =
        (⟨(xzreader_begin env.E env.newDecoder.1 (newFda.getD z.fda)).fda,
          (xzreader_begin env.E env.newDecoder.1 (newFda.getD z.fda)).st, false⟩,
         (xzreader_begin env.E env.newDecoder.1 (newFda.getD z.fda)).rc)) ∧
    (z.eof = false → env.newDecoder.2 ≠ .LZMA_OK →
      xzreader_reopen env z newFda =
        (⟨newFda.getD z.fda, env.newDecoder.1, z.eof⟩,
         .rcErr (.exz "lzma_stream_decoder" env.newDecoder.2))) := by
  obtain ⟨fda0, lz, eo⟩ := z
  refine ⟨?_, ?_, ?_⟩
  · intro heof
    simp only at heof
    subst heof
    cases newFda with
    | none => rfl
    | some f => rfl
  · intro heof hdec
    simp only at heof
    subst heof
    cases newFda with
    | none =>
      simp only [xzreader_reopen, Option.getD]
      rw [if_neg (by simp), if_pos hdec]
    | some f =>
      simp only [xzreader_reopen, Option.getD]
      rw [if_neg (by simp), if_pos hdec]
  · intro heof hne
    simp only at heof
    subst heof
    cases newFda with
    | none =>
      simp only [xzreader_reopen, Option.getD]
      rw [if_neg (by simp), if_neg hne]
    | some f =>
      simp only [xzreader_reopen, Option.getD]
      rw [if_neg (by simp), if_neg hne]

/-- Witness for C5: reopening a cleanly completed toy reader over a fresh
source retains the engine state and runs the open header probe. -/
theorem xzreader_reopen_spec_witness :
    xzreader_reopen ⟨toyEngine, (toyInit, .LZMA_OK), true⟩
      ⟨⟨[], [], false⟩, (⟨15, some 2, 2⟩ : ToySt), true⟩
      (some ⟨[], toyCompress [5], false⟩) =
      (⟨(xzreader_begin toyEngine (⟨15, some 2, 2⟩ : ToySt)
          ((some (⟨[], toyCompress [5], false⟩ : Fda)).getD ⟨[], [], false⟩)).fda,
        (xzreader_begin toyEngine (⟨15, some 2, 2⟩ : ToySt)
          ((some (⟨[], toyCompress [5], false⟩ : Fda)).getD ⟨[], [], false⟩)).st, false⟩,
       (xzreader_begin toyEngine (⟨15, some 2, 2⟩ : ToySt)
          ((some (⟨[], toyCompress [5], false⟩ : Fda)).getD ⟨[], [], false⟩)).rc) :=
  (xzreader_reopen_spec ⟨toyEngine, (toyInit, .LZMA_OK), true⟩
    ⟨⟨[], [], false⟩, ⟨15, some 2, 2⟩, true⟩
    (some ⟨[], toyCompress [5], false⟩)).1 rfl
